import Mathlib

/-!
# Verification of the F5-TTS silence-based audio slicer

This file is a shallow embedding, in Lean 4, of the `Slicer` class found in
`src/f5_tts/train/finetune_gradio.py` (the silence-based audio segmentation
algorithm), together with theorems settling the frozen claims about it.

Modelling conventions:
* Audio samples and RMS energy values are rationals (`ℚ`); the Python code
  uses floating point, but every claim under study concerns comparisons and
  index arithmetic, which the rational model reproduces faithfully.
* The RMS envelope is computed by the external collaborator
  `librosa.feature.rms` (out of scope per the specification, which lists the
  `EnergyEnvelopeProvider` as an external interface).  `Slicer.slice`
  therefore receives the envelope `rms` as an explicit argument; its length
  plays the role of `total_frames`.
* The waveform is modelled mono (`List ℚ`); the multichannel branch of the
  Python code only averages channels before the identical scan runs.
* Python `round` rounds half to even (banker's rounding); `pyRound` mirrors
  that on `ℚ`.
* Python raises `ZeroDivisionError` inside `__init__` when the hop size
  rounds to zero frames; `mkSlicer` models this with a distinguished error
  constructor, kept separate from the `ValueError` configuration checks.
-/

/-- Floor of a rational as an integer, computed directly from the reduced
numerator and (positive) denominator so that it evaluates by `decide`. -/
def ratFloor (q : ℚ) : ℤ := Int.fdiv q.num q.den

/-- Python's `round` on a rational: round half to even (banker's rounding). -/
def pyRound (q : ℚ) : ℤ :=
  let f := ratFloor q
  let r := q - f
  if r < 1/2 then f
  else if 1/2 < r then f + 1
  else if f % 2 = 0 then f else f + 1

/-- Index of the first occurrence of the minimum of a list (numpy `argmin`
with numpy's first-occurrence tie-breaking); `0` on the empty list. -/
def listArgmin : List ℚ → ℕ
  | [] => 0
  | [_] => 0
  | x :: xs =>
    let j := listArgmin xs
    if x ≤ xs.getD j 0 then 0 else j + 1

/-- `sliceArgmin rms a b` models the Python idiom
`rms_list[a:b].argmin() + a`: the first index of the minimum energy within
the (clamped) index window `[a, b)` of `rms`. -/
def sliceArgmin (rms : List ℚ) (a b : ℕ) : ℕ :=
  listArgmin ((rms.drop a).take (b - a)) + a

/-- Frame-count configuration of the slicer, as stored on `self` at the end
of `Slicer.__init__` (all durations already converted to envelope frames;
`threshold` is the linear amplitude threshold). -/
structure Slicer where
  threshold : ℚ
  hop_size : ℕ
  win_size : ℕ
  min_length : ℕ
  min_interval : ℕ
  max_sil_kept : ℕ
deriving DecidableEq, Repr

/-- Errors raised by `Slicer.__init__`: the two explicit `ValueError`
configuration checks, and the `ZeroDivisionError` that Python raises when
`round(sr * hop_size / 1000)` is zero and the later conversions divide by it. -/
inductive SlicerError where
  | configError (msg : String)
  | zeroDivError
deriving DecidableEq, Repr

/-- `Slicer.__init__`.  Arguments are the constructor arguments
(`sr` and the millisecond durations are Python ints; `threshold` is passed
already converted to linear amplitude, since `10 ** (threshold / 20)` is not
rational and the scan only ever compares against the converted value). -/
def mkSlicer (sr : ℕ) (threshold : ℚ) (min_length min_interval hop_size max_sil_kept : ℕ) :
    Except SlicerError Slicer :=
  if ¬ (min_length ≥ min_interval ∧ min_interval ≥ hop_size) then
    .error (.configError "The following condition must be satisfied: min_length >= min_interval >= hop_size")
  else if ¬ max_sil_kept ≥ hop_size then
    .error (.configError "The following condition must be satisfied: max_sil_kept >= hop_size")
  else
    let mi : ℚ := sr * min_interval / 1000
    let hop : ℤ := pyRound (sr * hop_size / 1000)
    if hop = 0 then .error .zeroDivError
    else
      .ok { threshold := threshold
            hop_size := hop.toNat
            win_size := min (pyRound mi).toNat (4 * hop.toNat)
            min_length := (pyRound (sr * min_length / 1000 / hop.toNat)).toNat
            min_interval := (pyRound (mi / hop.toNat)).toNat
            max_sil_kept := (pyRound (sr * max_sil_kept / 1000 / hop.toNat)).toNat }

/-- `Slicer._apply_slice`: `waveform[begin * hop : min(len, end * hop)]`. -/
def applySlice (c : Slicer) (samples : List ℚ) (b e : ℕ) : List ℚ :=
  (samples.take (min samples.length (e * c.hop_size))).drop (b * c.hop_size)

/-- One element of the list returned by `Slicer.slice`: either the bare
waveform (degenerate short-input path, `return [waveform]`) or a
`[chunk, start, end]` triple from the scan path. -/
inductive SliceResult where
  | bare (chunk : List ℚ)
  | seg (chunk : List ℚ) (start stop : ℕ)
deriving DecidableEq, Repr

/-- The mutable cross-iteration state of the scan loop in `Slicer.slice`. -/
structure ScanState where
  silence_start : Option ℕ
  clip_start : ℕ
  sil_tags : List (ℕ × ℕ)
deriving DecidableEq, Repr

/-- `is_leading_silence = silence_start == 0 and i > self.max_sil_kept`. -/
def isLeadingSilence (c : Slicer) (ss i : ℕ) : Prop :=
  ss = 0 ∧ i > c.max_sil_kept

instance (c : Slicer) (ss i : ℕ) : Decidable (isLeadingSilence c ss i) := by
  unfold isLeadingSilence; infer_instance

/-- `need_slice_middle = i - silence_start >= self.min_interval and
i - clip_start >= self.min_length` (Python integer arithmetic, hence `ℤ`). -/
def needSliceMiddle (c : Slicer) (clip ss i : ℕ) : Prop :=
  (i : ℤ) - ss ≥ c.min_interval ∧ (i : ℤ) - clip ≥ c.min_length

instance (c : Slicer) (clip ss i : ℕ) : Decidable (needSliceMiddle c clip ss i) := by
  unfold needSliceMiddle; infer_instance

/-- The body of the `for i, rms in enumerate(rms_list)` loop of
`Slicer.slice`, processing frame `i` with energy `r`.  The named temporaries
of the Python code are spelled out inline:
`pos = rms_list[silence_start : i + 1].argmin() + silence_start` in the short
branch, and in the two longer branches
`pos  = rms_list[i - max_sil_kept : silence_start + max_sil_kept + 1].argmin() + i - max_sil_kept`,
`pos_l = rms_list[silence_start : silence_start + max_sil_kept + 1].argmin() + silence_start`,
`pos_r = rms_list[i - max_sil_kept : i + 1].argmin() + i - max_sil_kept`. -/
def Slicer.stepFrame (c : Slicer) (rms : List ℚ) (s : ScanState) (i : ℕ) (r : ℚ) : ScanState :=
  if r < c.threshold then
    match s.silence_start with
    | none => { s with silence_start := some i }
    | some _ => s
  else
    match s.silence_start with
    | none => s
    | some ss =>
      if ¬ isLeadingSilence c ss i ∧ ¬ needSliceMiddle c s.clip_start ss i then
        { s with silence_start := none }
      else if (i : ℤ) - ss ≤ c.max_sil_kept then
        { silence_start := none
          clip_start := sliceArgmin rms ss (i + 1)
          sil_tags := s.sil_tags ++
            [if ss = 0 then (0, sliceArgmin rms ss (i + 1))
             else (sliceArgmin rms ss (i + 1), sliceArgmin rms ss (i + 1))] }
      else if (i : ℤ) - ss ≤ c.max_sil_kept * 2 then
        if ss = 0 then
          { silence_start := none
            clip_start := sliceArgmin rms (i - c.max_sil_kept) (i + 1)
            sil_tags := s.sil_tags ++ [(0, sliceArgmin rms (i - c.max_sil_kept) (i + 1))] }
        else
          { silence_start := none
            clip_start := max (sliceArgmin rms (i - c.max_sil_kept) (i + 1))
              (sliceArgmin rms (i - c.max_sil_kept) (ss + c.max_sil_kept + 1))
            sil_tags := s.sil_tags ++
              [(min (sliceArgmin rms ss (ss + c.max_sil_kept + 1))
                  (sliceArgmin rms (i - c.max_sil_kept) (ss + c.max_sil_kept + 1)),
                max (sliceArgmin rms (i - c.max_sil_kept) (i + 1))
                  (sliceArgmin rms (i - c.max_sil_kept) (ss + c.max_sil_kept + 1)))] }
      else
        { silence_start := none
          clip_start := sliceArgmin rms (i - c.max_sil_kept) (i + 1)
          sil_tags := s.sil_tags ++
            [if ss = 0 then (0, sliceArgmin rms (i - c.max_sil_kept) (i + 1))
             else (sliceArgmin rms ss (ss + c.max_sil_kept + 1),
               sliceArgmin rms (i - c.max_sil_kept) (i + 1))] }

/-- The full scan loop of `Slicer.slice` over the envelope frames, starting
from `silence_start = None`, `clip_start = 0`, `sil_tags = []`. -/
def Slicer.scanFrames (c : Slicer) (rms : List ℚ) : ScanState :=
  rms.enum.foldl (fun s p => c.stepFrame rms s p.1 p.2) ⟨none, 0, []⟩

/-- The trailing-silence commit of `Slicer.slice`: after the scan, a cut
`(pos, total_frames + 1)` is appended when a silence run is still open and
long enough. -/
def finalTags (c : Slicer) (rms : List ℚ) (s : ScanState) : List (ℕ × ℕ) :=
  let total := rms.length
  match s.silence_start with
  | none => s.sil_tags
  | some ss =>
    if (total : ℤ) - ss ≥ c.min_interval then
      let silence_end := min total (ss + c.max_sil_kept)
      s.sil_tags ++ [(sliceArgmin rms ss (silence_end + 1), total + 1)]
    else
      s.sil_tags

/-- The frame-index boundary pairs of the chunks between consecutive silence
tags: `(sil_tags[i][1], sil_tags[i+1][0])` for each `i`, matching the
`for i in range(len(sil_tags) - 1)` loop of `Slicer.slice`. -/
def midBounds : List (ℕ × ℕ) → List (ℕ × ℕ)
  | a :: b :: rest => (a.2, b.1) :: midBounds (b :: rest)
  | _ => []

/-- All frame-index boundary pairs of the emitted chunks, in order: the
optional leading chunk `(0, sil_tags[0][0])`, the in-between chunks, and the
optional final chunk `(sil_tags[-1][1], total_frames)`, with the same guards
as `Slicer.slice`. -/
def chunkBounds (total : ℕ) : List (ℕ × ℕ) → List (ℕ × ℕ)
  | [] => [(0, total)]
  | t0 :: rest =>
    (if 0 < t0.1 then [(0, t0.1)] else []) ++ midBounds (t0 :: rest) ++
      (if ((t0 :: rest).getLastD (0, 0)).2 < total then
        [(((t0 :: rest).getLastD (0, 0)).2, total)] else [])

/-- The chunk-materialisation step of `Slicer.slice`: with no tags, the whole
waveform is returned as one `[waveform, 0, total * hop]` triple; otherwise
each boundary pair `(b, e)` yields
`[self._apply_slice(waveform, b, e), b * hop, e * hop]`. -/
def Slicer.buildChunks (c : Slicer) (samples : List ℚ) (total : ℕ) (tags : List (ℕ × ℕ)) :
    List SliceResult :=
  match tags with
  | [] => [.seg samples 0 (total * c.hop_size)]
  | t0 :: rest =>
    (chunkBounds total (t0 :: rest)).map fun p =>
      .seg (applySlice c samples p.1 p.2) (p.1 * c.hop_size) (p.2 * c.hop_size)

/-- `Slicer.slice` on a mono waveform, with the RMS envelope supplied by the
external envelope provider. -/
def Slicer.slice (c : Slicer) (samples : List ℚ) (rms : List ℚ) : List SliceResult :=
  if samples.length ≤ c.min_length then
    [.bare samples]
  else
    c.buildChunks samples rms.length (finalTags c rms (c.scanFrames rms))

/-- The `(start, end)` sample offsets reported by the `[chunk, start, end]`
triples of a slice result (the bare degenerate result reports none). -/
def segOffsets : List SliceResult → List (ℕ × ℕ)
  | [] => []
  | .bare _ :: rest => segOffsets rest
  | .seg _ a b :: rest => (a, b) :: segOffsets rest

/-- Whether a construction attempt ended in one of the two explicit
`ValueError` configuration checks of `Slicer.__init__`. -/
def isConfigError : Except SlicerError Slicer → Bool
  | .error (.configError _) => true
  | _ => false

/-- A concrete valid configuration used by witnesses and counterexamples:
`mkSlicer 1000 1 100 10 10 10` (1 kHz sample rate, linear threshold `1`,
`min_length = 100 ms`, `min_interval = 10 ms`, `hop_size = 10 ms`,
`max_sil_kept = 10 ms`), giving 10 samples per frame, `min_length = 10`
frames, `min_interval = 1` frame, `max_sil_kept = 1` frame.  Energies below
`1` count as silence. -/
def exCfg : Slicer :=
  { threshold := 1
    hop_size := 10
    win_size := 10
    min_length := 10
    min_interval := 1
    max_sil_kept := 1 }

/-- Well-formedness invariant of the scan state before processing frame
`i`: committed tags are ordered pairs forming a strictly separated chain,
all strictly earlier than `i`, and any open silence run starts after every
committed tag and strictly before `i`. -/
structure StateOk (s : ScanState) (i : ℕ) : Prop where
  tags_le : ∀ t ∈ s.sil_tags, t.1 ≤ t.2
  tags_chain : List.Chain' (fun a b : ℕ × ℕ => a.2 < b.1) s.sil_tags
  tags_lt : ∀ t ∈ s.sil_tags, t.2 < i
  ss_lt : ∀ ss, s.silence_start = some ss → ss < i
  tags_ss : ∀ ss, s.silence_start = some ss → ∀ t ∈ s.sil_tags, t.2 < ss

/-! ## Basic facts about the argmin helpers -/

lemma listArgmin_lt_length : ∀ {l : List ℚ}, l ≠ [] → listArgmin l < l.length
  | [], h => absurd rfl h
  | [_], _ => by simp [listArgmin]
  | x :: y :: ys, _ => by
    have ih := listArgmin_lt_length (l := y :: ys) (by simp)
    simp only [List.length_cons] at ih
    simp only [listArgmin, List.length_cons]
    split
    · omega
    · omega

lemma listArgmin_le : ∀ (l : List ℚ) (j : ℕ), j < l.length →
    l.getD (listArgmin l) 0 ≤ l.getD j 0
  | [], j, h => by simp at h
  | [x], j, h => by
    have : j = 0 := by simpa using Nat.lt_one_iff.mp (by simpa using h)
    subst this
    simp [listArgmin]
  | x :: y :: ys, j, h => by
    have ih := listArgmin_le (y :: ys)
    simp only [listArgmin]
    split
    next hle =>
      cases j with
      | zero => simp
      | succ k =>
        simp only [List.getD_cons_zero, List.getD_cons_succ]
        exact le_trans hle (ih k (by simpa using h))
    next hgt =>
      push_neg at hgt
      cases j with
      | zero =>
        simp only [List.getD_cons_zero, List.getD_cons_succ]
        exact le_of_lt hgt
      | succ k =>
        simp only [List.getD_cons_succ]
        exact ih k (by simpa using h)

lemma listArgmin_first_occ : ∀ (l : List ℚ) (j : ℕ), j < listArgmin l →
    l.getD (listArgmin l) 0 < l.getD j 0
  | [], j, h => by simp [listArgmin] at h
  | [x], j, h => by simp [listArgmin] at h
  | x :: y :: ys, j, h => by
    have ih := listArgmin_first_occ (y :: ys)
    simp only [listArgmin] at h ⊢
    split
    next hle => rw [if_pos hle] at h; omega
    next hgt =>
      push_neg at hgt
      rw [if_neg (not_le.mpr hgt)] at h
      cases j with
      | zero => simpa [List.getD_cons_succ] using hgt
      | succ k =>
        simp only [List.getD_cons_succ]
        exact ih k (by omega)

lemma sliceArgmin_ge (rms : List ℚ) (a b : ℕ) : a ≤ sliceArgmin rms a b :=
  Nat.le_add_left a _

lemma sliceArgmin_lt (rms : List ℚ) {a b : ℕ} (hab : a < b) : sliceArgmin rms a b < b := by
  unfold sliceArgmin
  by_cases hw : (rms.drop a).take (b - a) = []
  · simp [hw, listArgmin]; omega
  · have h1 := listArgmin_lt_length hw
    have h2 : ((rms.drop a).take (b - a)).length ≤ b - a := by
      simpa using min_le_left (b - a) (rms.drop a).length
    omega

lemma sliceArgmin_lt_length (rms : List ℚ) {a : ℕ} (b : ℕ) (ha : a < rms.length) :
    sliceArgmin rms a b < rms.length := by
  unfold sliceArgmin
  by_cases hw : (rms.drop a).take (b - a) = []
  · simp [hw, listArgmin]; omega
  · have h1 := listArgmin_lt_length hw
    have h2 : ((rms.drop a).take (b - a)).length = min (b - a) (rms.length - a) := by
      simp [List.length_take]
    omega

lemma window_getD (rms : List ℚ) (a b k : ℕ)
    (hk : k < ((rms.drop a).take (b - a)).length) :
    ((rms.drop a).take (b - a)).getD k 0 = rms.getD (a + k) 0 := by
  have hk1 : k < b - a := by
    have h2 : ((rms.drop a).take (b - a)).length ≤ b - a := by
      simpa using min_le_left (b - a) (rms.drop a).length
    omega
  rw [List.getD_eq_getElem?_getD, List.getD_eq_getElem?_getD,
    List.getElem?_take_of_lt hk1, List.getElem?_drop]

lemma sliceArgmin_min (rms : List ℚ) {a b : ℕ} (hab : a < b) (ha : a < rms.length) :
    ∀ j, a ≤ j → j < b → j < rms.length →
      rms.getD (sliceArgmin rms a b) 0 ≤ rms.getD j 0 := by
  intro j hja hjb hjl
  have hwlen : ((rms.drop a).take (b - a)).length = min (b - a) (rms.length - a) := by
    simp [List.length_take]
  have hwne : (rms.drop a).take (b - a) ≠ [] := by
    intro hw
    rw [hw] at hwlen
    simp at hwlen
    omega
  have hk := listArgmin_lt_length hwne
  have h1 : rms.getD (sliceArgmin rms a b) 0 =
      ((rms.drop a).take (b - a)).getD (listArgmin ((rms.drop a).take (b - a))) 0 := by
    rw [window_getD rms a b _ hk]
    unfold sliceArgmin
    rw [Nat.add_comm]
  have h2 : rms.getD j 0 = ((rms.drop a).take (b - a)).getD (j - a) 0 := by
    rw [window_getD rms a b (j - a) (by omega)]
    congr 1
    omega
  rw [h1, h2]
  exact listArgmin_le _ (j - a) (by omega)

lemma sliceArgmin_first_occ (rms : List ℚ) {a b : ℕ} (hab : a < b) (ha : a < rms.length) :
    ∀ j, a ≤ j → j < sliceArgmin rms a b →
      rms.getD (sliceArgmin rms a b) 0 < rms.getD j 0 := by
  intro j hja hjp
  have hwlen : ((rms.drop a).take (b - a)).length = min (b - a) (rms.length - a) := by
    simp [List.length_take]
  have hwne : (rms.drop a).take (b - a) ≠ [] := by
    intro hw
    have : sliceArgmin rms a b = a := by unfold sliceArgmin; rw [hw]; simp [listArgmin]
    omega
  have hk := listArgmin_lt_length hwne
  have hja' : j - a < listArgmin ((rms.drop a).take (b - a)) := by
    unfold sliceArgmin at hjp; omega
  have h1 : rms.getD (sliceArgmin rms a b) 0 =
      ((rms.drop a).take (b - a)).getD (listArgmin ((rms.drop a).take (b - a))) 0 := by
    rw [window_getD rms a b _ hk]
    unfold sliceArgmin
    rw [Nat.add_comm]
  have h2 : rms.getD j 0 = ((rms.drop a).take (b - a)).getD (j - a) 0 := by
    rw [window_getD rms a b (j - a) (by omega)]
    congr 1
    omega
  rw [h1, h2]
  exact listArgmin_first_occ _ (j - a) hja'

/-- `pyRound` is the identity on integers. -/
lemma pyRound_intCast (n : ℤ) : pyRound ((n : ℚ)) = n := by
  have hfl : ratFloor ((n : ℚ)) = n := by
    simp [ratFloor, Rat.intCast_num, Rat.intCast_den]
  simp only [pyRound, hfl]
  norm_num

/-- Shared success-case equation for `mkSlicer`: when both ordering checks
pass and the hop size rounds to a nonzero frame count, construction succeeds
with the stated field conversions. -/
lemma mkSlicer_ok (sr : ℕ) (th : ℚ) (ml mi hs msk : ℕ)
    (hml : ml ≥ mi) (hhs : mi ≥ hs) (hmsk : msk ≥ hs)
    (hhop : pyRound ((sr : ℚ) * hs / 1000) ≠ 0) :
    mkSlicer sr th ml mi hs msk = .ok
      { threshold := th
        hop_size := (pyRound ((sr : ℚ) * hs / 1000)).toNat
        win_size := min (pyRound ((sr : ℚ) * mi / 1000)).toNat
          (4 * (pyRound ((sr : ℚ) * hs / 1000)).toNat)
        min_length := (pyRound ((sr : ℚ) * ml / 1000 /
          ((pyRound ((sr : ℚ) * hs / 1000)).toNat : ℚ))).toNat
        min_interval := (pyRound ((sr : ℚ) * mi / 1000 /
          ((pyRound ((sr : ℚ) * hs / 1000)).toNat : ℚ))).toNat
        max_sil_kept := (pyRound ((sr : ℚ) * msk / 1000 /
          ((pyRound ((sr : ℚ) * hs / 1000)).toNat : ℚ))).toNat } := by
  unfold mkSlicer
  rw [if_neg (not_not_intro ⟨hml, hhs⟩), if_neg (not_not_intro hmsk), if_neg hhop]

/-! ## C6: construction-time validation -/

/-- C6: construction of the segmenter fails with a configuration error if and
only if `min_length ≥ min_interval ≥ hop_size` fails or
`max_sil_kept ≥ hop_size` fails; no instance is built on failure (the
`Except` is an error), the checks precede all conversions, and on success the
millisecond parameters are converted once into frame counts by the stated
rounding formulas. -/
theorem mkSlicer_validation (sr : ℕ) (th : ℚ) (ml mi hs msk : ℕ) :
    (isConfigError (mkSlicer sr th ml mi hs msk) = true ↔
      ¬ (ml ≥ mi ∧ mi ≥ hs ∧ msk ≥ hs)) ∧
    (ml ≥ mi → mi ≥ hs → msk ≥ hs → pyRound ((sr : ℚ) * hs / 1000) ≠ 0 →
      mkSlicer sr th ml mi hs msk = .ok
        { threshold := th
          hop_size := (pyRound ((sr : ℚ) * hs / 1000)).toNat
          win_size := min (pyRound ((sr : ℚ) * mi / 1000)).toNat
            (4 * (pyRound ((sr : ℚ) * hs / 1000)).toNat)
          min_length := (pyRound ((sr : ℚ) * ml / 1000 /
            ((pyRound ((sr : ℚ) * hs / 1000)).toNat : ℚ))).toNat
          min_interval := (pyRound ((sr : ℚ) * mi / 1000 /
            ((pyRound ((sr : ℚ) * hs / 1000)).toNat : ℚ))).toNat
          max_sil_kept := (pyRound ((sr : ℚ) * msk / 1000 /
            ((pyRound ((sr : ℚ) * hs / 1000)).toNat : ℚ))).toNat }) := by
  constructor
  · constructor
    · intro hce hcond
      obtain ⟨hml, hhs, hmsk⟩ := hcond
      unfold mkSlicer at hce
      rw [if_neg (not_not_intro ⟨hml, hhs⟩), if_neg (not_not_intro hmsk)] at hce
      by_cases hhop : pyRound ((sr : ℚ) * hs / 1000) = 0
      · rw [if_pos hhop] at hce
        simp [isConfigError] at hce
      · rw [if_neg hhop] at hce
        simp [isConfigError] at hce
    · intro hviol
      unfold mkSlicer
      by_cases h1 : ml ≥ mi ∧ mi ≥ hs
      · have h2 : ¬ msk ≥ hs := by tauto
        rw [if_neg (not_not_intro h1), if_pos h2]
        simp [isConfigError]
      · rw [if_pos h1]
        simp [isConfigError]
  · exact fun hml hhs hmsk hhop => mkSlicer_ok sr th ml mi hs msk hml hhs hmsk hhop

/-- Witness for `mkSlicer_validation`: the spec's own concrete scenario
(24 kHz, `min_length = 20000 ms`, `min_interval = 300 ms`, `hop = 20 ms`,
`max_sil_kept = 2000 ms`) constructs successfully with the expected frame
counts, and swapping `min_length` and `min_interval` fails the check. -/
theorem mkSlicer_validation_witness :
    isConfigError (mkSlicer 24000 1 300 20000 20 2000) = true ∧
    mkSlicer 24000 1 20000 300 20 2000 = .ok
      { threshold := 1
        hop_size := 480
        win_size := 1920
        min_length := 1000
        min_interval := 15
        max_sil_kept := 100 } := by
  have e480 : pyRound (((24000 : ℕ) : ℚ) * ((20 : ℕ) : ℚ) / 1000) = 480 := by
    rw [show (((24000 : ℕ) : ℚ) * ((20 : ℕ) : ℚ) / 1000) = ((480 : ℤ) : ℚ) by norm_num,
      pyRound_intCast]
  constructor
  · exact (mkSlicer_validation 24000 1 300 20000 20 2000).1.mpr (by norm_num)
  · have h := (mkSlicer_validation 24000 1 20000 300 20 2000).2
      (by norm_num) (by norm_num) (by norm_num) (by rw [e480]; norm_num)
    rw [h, e480]
    have hto : (480 : ℤ).toNat = (480 : ℕ) := rfl
    simp only [hto]
    have e1 : pyRound (((24000 : ℕ) : ℚ) * ((300 : ℕ) : ℚ) / 1000) = 7200 := by
      rw [show (((24000 : ℕ) : ℚ) * ((300 : ℕ) : ℚ) / 1000) = ((7200 : ℤ) : ℚ) by norm_num,
        pyRound_intCast]
    have e2 : pyRound (((24000 : ℕ) : ℚ) * ((20000 : ℕ) : ℚ) / 1000 / ((480 : ℕ) : ℚ)) = 1000 := by
      rw [show (((24000 : ℕ) : ℚ) * ((20000 : ℕ) : ℚ) / 1000 / ((480 : ℕ) : ℚ)) =
        ((1000 : ℤ) : ℚ) by norm_num, pyRound_intCast]
    have e3 : pyRound (((24000 : ℕ) : ℚ) * ((300 : ℕ) : ℚ) / 1000 / ((480 : ℕ) : ℚ)) = 15 := by
      rw [show (((24000 : ℕ) : ℚ) * ((300 : ℕ) : ℚ) / 1000 / ((480 : ℕ) : ℚ)) =
        ((15 : ℤ) : ℚ) by norm_num, pyRound_intCast]
    have e4 : pyRound (((24000 : ℕ) : ℚ) * ((2000 : ℕ) : ℚ) / 1000 / ((480 : ℕ) : ℚ)) = 100 := by
      rw [show (((24000 : ℕ) : ℚ) * ((2000 : ℕ) : ℚ) / 1000 / ((480 : ℕ) : ℚ)) =
        ((100 : ℤ) : ℚ) by norm_num, pyRound_intCast]
    rw [e1, e2, e3, e4]
    exact congrArg Except.ok (by decide)

/-! ## C3: gating of mid-stream cuts -/

/-- Claim C3: during the scan, a mid-stream (non-leading, `silence_start ≠ 0`)
cut is committed at the close of a silence run only if both
`i - silence_start ≥ min_interval` and `i - clip_start ≥ min_length` held at
commit time; and a run satisfying neither that condition nor the
leading-silence condition is discarded by resetting `silence_start` to
`none`, leaving `sil_tags` and `clip_start` unchanged. -/
theorem mid_cut_gating (c : Slicer) (rms : List ℚ) (s : ScanState) (i ss : ℕ) (r : ℚ)
    (hss : s.silence_start = some ss) (hr : ¬ r < c.threshold) :
    (ss ≠ 0 → (c.stepFrame rms s i r).sil_tags ≠ s.sil_tags →
      needSliceMiddle c s.clip_start ss i) ∧
    (¬ isLeadingSilence c ss i → ¬ needSliceMiddle c s.clip_start ss i →
      c.stepFrame rms s i r = { s with silence_start := none }) := by
  simp only [Slicer.stepFrame, hss]
  rw [if_neg hr]
  constructor
  · intro hssne htags
    by_cases hM : needSliceMiddle c s.clip_start ss i
    · exact hM
    · have hL : ¬ isLeadingSilence c ss i := fun hc => hssne hc.1
      rw [if_pos ⟨hL, hM⟩] at htags
      exact absurd rfl htags
  · intro hL hM
    rw [if_pos ⟨hL, hM⟩]

/-- Witness for `mid_cut_gating`: with the concrete configuration `exCfg`, a
silence run `[3, 6)` closing at `i = 6` fails the `min_length` gate
(`6 - 0 < 10`) and is discarded with no cut and `clip_start` unchanged. -/
theorem mid_cut_gating_witness :
    Slicer.stepFrame exCfg [] ⟨some 3, 0, []⟩ 6 2 = ⟨none, 0, []⟩ :=
  (mid_cut_gating exCfg [] ⟨some 3, 0, []⟩ 6 3 2 rfl (by decide)).2
    (by decide) (by decide)

/-! ## C5: classification of leading silence -/

/-- Claim C5: a silence run starting at frame 0 and closing at frame `i` is
classified as leading silence exactly when `i > max_sil_kept` (strict): at
`i = max_sil_kept` it is not leading silence, while at `i = max_sil_kept + 1`
it is, and the cut committed there has a range starting at frame 0. -/
theorem leading_silence_boundary (c : Slicer) (rms : List ℚ) (s : ScanState) (i : ℕ) (r : ℚ)
    (hss : s.silence_start = some 0) (hr : ¬ r < c.threshold) :
    (∀ j, isLeadingSilence c 0 j ↔ j > c.max_sil_kept) ∧
    ¬ isLeadingSilence c 0 c.max_sil_kept ∧
    (i = c.max_sil_kept + 1 → isLeadingSilence c 0 i ∧
      ∃ e, (c.stepFrame rms s i r).sil_tags = s.sil_tags ++ [(0, e)]) := by
  refine ⟨fun j => ⟨fun h => h.2, fun h => ⟨rfl, h⟩⟩, fun h => lt_irrefl _ h.2, ?_⟩
  intro hi
  subst hi
  have hL : isLeadingSilence c 0 (c.max_sil_kept + 1) := ⟨rfl, Nat.lt_succ_self _⟩
  refine ⟨hL, ?_⟩
  simp only [Slicer.stepFrame, hss]
  rw [if_neg hr]
  rw [if_neg (by intro hc; exact hc.1 hL)]
  rw [if_neg (by push_cast; omega)]
  by_cases hb : ((c.max_sil_kept + 1 : ℕ) : ℤ) - ((0 : ℕ) : ℤ) ≤ c.max_sil_kept * 2
  · rw [if_pos hb]
    simp only [if_true]
    exact ⟨_, rfl⟩
  · rw [if_neg hb]
    simp only [if_true]
    exact ⟨_, rfl⟩

/-- Witness for `leading_silence_boundary`: with `exCfg`
(`max_sil_kept = 1` frame) and silence over frames `[0, 2)` closing at
`i = 2 = max_sil_kept + 1`, the run is leading silence and the committed cut
range starts at frame 0. -/
theorem leading_silence_boundary_witness :
    isLeadingSilence exCfg 0 2 ∧
    ∃ e, (Slicer.stepFrame exCfg [0, 0, 2] ⟨some 0, 0, []⟩ 2 2).sil_tags = [] ++ [(0, e)] :=
  (leading_silence_boundary exCfg [0, 0, 2] ⟨some 0, 0, []⟩ 2 2 rfl (by decide)).2.2 rfl

/-! ## C4: the trailing-silence commit -/

/-- Claim C4: after the scan, a trailing cut is committed if and only if a
silence run is still open at end-of-stream and
`total_frames - silence_start ≥ min_interval`; the committed cut range is
`(pos, total_frames + 1)` where `pos` is the first minimum-energy frame of
the window `[silence_start, min(total_frames, silence_start + max_sil_kept)]`
(restricted to frames that exist); a shorter open trailing run commits
nothing, so the trailing silence stays inside the final segment. -/
theorem trailing_silence_rule (c : Slicer) (rms : List ℚ) (s : ScanState) :
    (s.silence_start = none → finalTags c rms s = s.sil_tags) ∧
    (∀ ss, s.silence_start = some ss →
      ((rms.length : ℤ) - ss < c.min_interval → finalTags c rms s = s.sil_tags) ∧
      ((c.min_interval : ℤ) ≤ (rms.length : ℤ) - ss →
        finalTags c rms s = s.sil_tags ++
          [(sliceArgmin rms ss (min rms.length (ss + c.max_sil_kept) + 1), rms.length + 1)] ∧
        (ss < rms.length →
          ss ≤ sliceArgmin rms ss (min rms.length (ss + c.max_sil_kept) + 1) ∧
          sliceArgmin rms ss (min rms.length (ss + c.max_sil_kept) + 1) ≤
            min rms.length (ss + c.max_sil_kept) ∧
          ∀ j, ss ≤ j → j ≤ min rms.length (ss + c.max_sil_kept) → j < rms.length →
            rms.getD (sliceArgmin rms ss (min rms.length (ss + c.max_sil_kept) + 1)) 0 ≤
              rms.getD j 0))) := by
  constructor
  · intro hnone
    simp only [finalTags, hnone]
  · intro ss hss
    constructor
    · intro hshort
      simp only [finalTags, hss]
      rw [if_neg (by omega)]
    · intro hlong
      constructor
      · simp only [finalTags, hss]
        rw [if_pos (by omega)]
      · intro hlt
        have hab : ss < min rms.length (ss + c.max_sil_kept) + 1 := by omega
        refine ⟨sliceArgmin_ge rms ss _, ?_, ?_⟩
        · have := sliceArgmin_lt rms hab
          omega
        · intro j hj1 hj2 hj3
          exact sliceArgmin_min rms hab hlt j hj1 (by omega) hj3

/-- Witness for `trailing_silence_rule`: with `exCfg` and a fully silent
2-frame envelope, the run open at end-of-stream has length `2 ≥ 1 =
min_interval`, so the trailing cut `(0, 3)` is committed (`pos = 0` is the
first minimum of the window). -/
theorem trailing_silence_rule_witness :
    finalTags exCfg [0, 0] ⟨some 0, 0, []⟩ = [(0, 3)] := by
  have h := ((trailing_silence_rule exCfg [0, 0] ⟨some 0, 0, []⟩).2 0 rfl).2 (by decide)
  rw [h.1]
  decide

/-! ## C9: tie-breaking in the minimum-energy searches -/

/-- Claim C9: in every minimum-energy search used to choose a cut position
(`sliceArgmin`, the model of `rms_list[a:b].argmin() + a`, used by `pos`,
`pos_l` and `pos_r` in all three run-length branches and by the trailing
commit), the chosen frame attains the minimum energy of the searched window
and is its first occurrence: every lower-index frame of the window has
strictly larger energy. -/
theorem argmin_first_minimum (rms : List ℚ) (a b : ℕ) (hab : a < b) (hb : b ≤ rms.length) :
    a ≤ sliceArgmin rms a b ∧ sliceArgmin rms a b < b ∧
    (∀ j, a ≤ j → j < b → rms.getD (sliceArgmin rms a b) 0 ≤ rms.getD j 0) ∧
    (∀ j, a ≤ j → j < sliceArgmin rms a b →
      rms.getD (sliceArgmin rms a b) 0 < rms.getD j 0) := by
  have ha : a < rms.length := lt_of_lt_of_le hab hb
  exact ⟨sliceArgmin_ge rms a b, sliceArgmin_lt rms hab,
    fun j h1 h2 => sliceArgmin_min rms hab ha j h1 h2 (lt_of_lt_of_le h2 hb),
    fun j h1 h2 => sliceArgmin_first_occ rms hab ha j h1 h2⟩

/-- Witness for `argmin_first_minimum`: in the window `[1, 4)` of
`[2, 0, 0, 2]`, the minimum energy 0 is attained twice and the search picks
the first occurrence, index 1. -/
theorem argmin_first_minimum_witness :
    sliceArgmin [2, 0, 0, 2] 1 4 = 1 ∧
    (∀ j, 1 ≤ j → j < 4 →
      ([2, 0, 0, 2] : List ℚ).getD (sliceArgmin [2, 0, 0, 2] 1 4) 0 ≤
        ([2, 0, 0, 2] : List ℚ).getD j 0) :=
  ⟨by decide, (argmin_first_minimum [2, 0, 0, 2] 1 4 (by decide) (by decide)).2.2.1⟩

/-! ## C10: the two result shapes of slice -/

/-- Claim C10: the degenerate short-input path returns a one-element list
holding the bare waveform with no offsets attached, whereas every other
return path of `slice` yields only `[chunk, start, end]` triples; a caller
receives two different result shapes depending on input length. -/
theorem slice_result_shape (c : Slicer) (w rms : List ℚ) :
    (w.length ≤ c.min_length → c.slice w rms = [SliceResult.bare w]) ∧
    (c.min_length < w.length →
      ∀ x ∈ c.slice w rms, ∃ ch a b, x = SliceResult.seg ch a b) := by
  constructor
  · intro h
    simp only [Slicer.slice, if_pos h]
  · intro h x hx
    simp only [Slicer.slice, if_neg (not_le.mpr h)] at hx
    unfold Slicer.buildChunks at hx
    cases htags : finalTags c rms (c.scanFrames rms) with
    | nil =>
      rw [htags] at hx
      simp only [List.mem_singleton] at hx
      exact ⟨w, 0, rms.length * c.hop_size, hx⟩
    | cons t0 rest =>
      rw [htags] at hx
      simp only [List.mem_map] at hx
      obtain ⟨p, _, hp⟩ := hx
      exact ⟨_, _, _, hp.symm⟩

/-- Witness for `slice_result_shape`: a 5-sample input (below `min_length =
10`) yields the bare shape, while the 95-sample all-loud input yields an
offset-carrying triple. -/
theorem slice_result_shape_witness :
    exCfg.slice (List.replicate 5 0) [2] = [SliceResult.bare (List.replicate 5 0)] ∧
    (∃ ch a b, SliceResult.seg (List.replicate 95 (0 : ℚ)) 0 100 = SliceResult.seg ch a b) :=
  ⟨(slice_result_shape exCfg (List.replicate 5 0) [2]).1 (by decide),
   (slice_result_shape exCfg (List.replicate 95 0) (List.replicate 10 2)).2 (by decide)
     (SliceResult.seg (List.replicate 95 0) 0 100) (by decide)⟩

/-! ## C1: the degenerate short-input gate -/

/-- Claim C1 (amended): the degenerate path triggers exactly when the total
sample count is at most `min_length` — a frame count, not
`min_length * hop_size` samples: such an input is returned whole as the
single bare segment with the envelope never examined (the result does not
depend on the envelope), while any strictly longer waveform is handed to the
envelope scan. -/
theorem short_input_path (c : Slicer) (w rms rms2 : List ℚ) :
    (w.length ≤ c.min_length →
      c.slice w rms = [SliceResult.bare w] ∧ c.slice w rms = c.slice w rms2) ∧
    (c.min_length < w.length →
      c.slice w rms = c.buildChunks w rms.length (finalTags c rms (c.scanFrames rms))) := by
  constructor
  · intro h
    constructor <;> simp only [Slicer.slice, if_pos h]
  · intro h
    simp only [Slicer.slice, if_neg (not_le.mpr h)]

/-- Witness for `short_input_path`: a 5-sample input with `exCfg`
(`min_length = 10` frames) takes the bare path regardless of the envelope. -/
theorem short_input_path_witness :
    exCfg.slice (List.replicate 5 0) [2] = [SliceResult.bare (List.replicate 5 0)] ∧
    exCfg.slice (List.replicate 5 0) [2] = exCfg.slice (List.replicate 5 0) [0] :=
  (short_input_path exCfg (List.replicate 5 0) [2] [0]).1 (by decide)

/-- Counterexample to claim C1 as stated: under the valid configuration
`exCfg = mkSlicer 1000 1 100 10 10 10` (`min_length = 10` frames,
`hop_size = 10` samples per frame), a 95-sample waveform satisfies
`95 ≤ min_length * hop_size = 100`, yet `slice` runs the envelope scan: with
two leading silent frames it commits a leading cut and returns a single
offset-carrying segment starting at sample 10 — neither the bare degenerate
result nor a segment spanning the entire input. -/
theorem short_input_counterexample :
    mkSlicer 1000 1 100 10 10 10 = .ok exCfg ∧
    (List.replicate 95 (0 : ℚ)).length ≤ exCfg.min_length * exCfg.hop_size ∧
    exCfg.slice (List.replicate 95 0) [0, 0, 2, 2, 2, 2, 2, 2, 2, 2] =
      [SliceResult.seg (List.replicate 85 0) 10 100] := by
  refine ⟨?_, by decide, by decide⟩
  have e10 : pyRound (((1000 : ℕ) : ℚ) * ((10 : ℕ) : ℚ) / 1000) = 10 := by
    rw [show (((1000 : ℕ) : ℚ) * ((10 : ℕ) : ℚ) / 1000) = ((10 : ℤ) : ℚ) by norm_num,
      pyRound_intCast]
  rw [mkSlicer_ok 1000 1 100 10 10 10 (by norm_num) (by norm_num) (by norm_num)
    (by rw [e10]; norm_num), e10]
  have hto : (10 : ℤ).toNat = (10 : ℕ) := rfl
  simp only [hto]
  have e1 : pyRound (((1000 : ℕ) : ℚ) * ((100 : ℕ) : ℚ) / 1000 / ((10 : ℕ) : ℚ)) = 10 := by
    rw [show (((1000 : ℕ) : ℚ) * ((100 : ℕ) : ℚ) / 1000 / ((10 : ℕ) : ℚ)) =
      ((10 : ℤ) : ℚ) by norm_num, pyRound_intCast]
  have e2 : pyRound (((1000 : ℕ) : ℚ) * ((10 : ℕ) : ℚ) / 1000 / ((10 : ℕ) : ℚ)) = 1 := by
    rw [show (((1000 : ℕ) : ℚ) * ((10 : ℕ) : ℚ) / 1000 / ((10 : ℕ) : ℚ)) =
      ((1 : ℤ) : ℚ) by norm_num, pyRound_intCast]
  rw [e1, e2]
  exact congrArg Except.ok (by decide)

/-! ## C2: empty input and empty output -/

/-- Claim C2 (amended): an empty waveform is not reported as an error — it
always (for every configuration) takes the degenerate short-input path and
returns the one-element bare result; moreover `slice` can return an empty
sequence of segments for a non-empty, all-silent waveform. -/
theorem empty_input_behaviour :
    (∀ (c : Slicer) (rms : List ℚ), c.slice [] rms = [SliceResult.bare []]) ∧
    (∃ (c : Slicer) (w rms : List ℚ), w ≠ [] ∧ c.slice w rms = []) := by
  constructor
  · intro c rms
    simp only [Slicer.slice]
    rw [if_pos (by simp)]
  · exact ⟨exCfg, List.replicate 95 0, List.replicate 10 0, by decide, by decide⟩

/-- Counterexample to claim C2 as stated: `slice` raises nothing for an
empty waveform — the code returns the bare degenerate result (there is no
error path at all) — and for a non-empty all-silent 95-sample waveform the
scan commits the single tag `(0, total_frames + 1)`, whose materialisation
emits no chunk, so the returned sequence of segments is empty. -/
theorem empty_input_counterexample :
    exCfg.slice ([] : List ℚ) [] = [SliceResult.bare []] ∧
    List.replicate 95 (0 : ℚ) ≠ [] ∧
    exCfg.slice (List.replicate 95 0) (List.replicate 10 0) = [] :=
  ⟨by decide, by decide, by decide⟩

/-! ## C8: reported offsets are not clamped -/

/-- Claim C8 (amended): every reported offset of an emitted segment is a
cut-range frame index multiplied by `hop_size` with no clamping applied (so
a reported end offset can exceed the sample count); only the chunk data
itself is clamped to the waveform length, by `_apply_slice` — except on the
no-tag path, where the chunk is the whole waveform. -/
theorem offsets_unclamped (c : Slicer) (w rms : List ℚ) (x : SliceResult)
    (ch : List ℚ) (a b : ℕ) (hx : x ∈ c.slice w rms) (hseg : x = SliceResult.seg ch a b) :
    ∃ bf ef, a = bf * c.hop_size ∧ b = ef * c.hop_size ∧
      (ch = w ∨ ch = applySlice c w bf ef) := by
  subst hseg
  by_cases h : w.length ≤ c.min_length
  · simp only [Slicer.slice, if_pos h, List.mem_singleton] at hx
    exact absurd hx (by simp)
  · simp only [Slicer.slice, if_neg h] at hx
    unfold Slicer.buildChunks at hx
    cases htags : finalTags c rms (c.scanFrames rms) with
    | nil =>
      rw [htags] at hx
      simp only [List.mem_singleton, SliceResult.seg.injEq] at hx
      obtain ⟨hcw, ha, hb⟩ := hx
      exact ⟨0, rms.length, by omega, by omega, Or.inl hcw⟩
    | cons t0 rest =>
      rw [htags] at hx
      simp only [List.mem_map] at hx
      obtain ⟨p, _, hp⟩ := hx
      rw [SliceResult.seg.injEq] at hp
      exact ⟨p.1, p.2, hp.2.1.symm, hp.2.2.symm, Or.inr hp.1.symm⟩

/-- Witness for `offsets_unclamped`: the leading-cut example returns the
segment `(10, 100)`; its offsets are the frame pair `(1, 10)` times
`hop_size = 10`, and its chunk is the clamped `_apply_slice` extraction. -/
theorem offsets_unclamped_witness :
    ∃ bf ef, 10 = bf * exCfg.hop_size ∧ 100 = ef * exCfg.hop_size ∧
      (List.replicate 85 (0 : ℚ) = List.replicate 95 (0 : ℚ) ∨
        List.replicate 85 (0 : ℚ) = applySlice exCfg (List.replicate 95 0) bf ef) :=
  offsets_unclamped exCfg (List.replicate 95 0) [0, 0, 2, 2, 2, 2, 2, 2, 2, 2]
    (SliceResult.seg (List.replicate 85 0) 10 100) (List.replicate 85 0) 10 100
    (by decide) rfl

/-- Counterexample to claim C8 as stated: with `exCfg` and a 95-sample
all-loud waveform whose envelope has 10 frames, the no-tag path reports the
segment `(0, 100)`: the reported end offset `total_frames * hop_size = 100`
exceeds the total sample count 95, so reported offsets are not clamped to
the waveform length. -/
theorem offsets_counterexample :
    (List.replicate 95 (0 : ℚ)).length = 95 ∧
    exCfg.slice (List.replicate 95 0) (List.replicate 10 2) =
      [SliceResult.seg (List.replicate 95 0) 0 100] ∧
    95 < 100 :=
  ⟨by decide, by decide, by decide⟩

/-! ## C7: segment ordering and disjointness -/

/-- Appending a committed tag `t'` with `ss ≤ t'.1 ≤ t'.2 ≤ i` to a
well-formed state whose silence run starts at `ss` preserves the
invariant (with the run closed). -/
lemma commit_ok {s : ScanState} {i : ℕ} (h : StateOk s i) {ss : ℕ}
    (hss : s.silence_start = some ss) {t' : ℕ × ℕ} {clip' : ℕ}
    (hle : t'.1 ≤ t'.2) (hlo : ss ≤ t'.1) (hhi : t'.2 ≤ i) :
    StateOk ⟨none, clip', s.sil_tags ++ [t']⟩ (i + 1) := by
  have hts := h.tags_ss ss hss
  refine ⟨?_, ?_, ?_, ?_, ?_⟩
  · intro t ht
    rcases List.mem_append.mp ht with h1 | h1
    · exact h.tags_le t h1
    · rcases List.mem_singleton.mp h1 with rfl
      exact hle
  · rw [List.chain'_append]
    refine ⟨h.tags_chain, List.chain'_singleton _, ?_⟩
    intro x hx y hy
    have hxm : x ∈ s.sil_tags := List.mem_of_mem_getLast? hx
    have hx2 : x.2 < ss := hts x hxm
    have hy' : t' = y := by simpa using hy
    subst hy'
    omega
  · intro t ht
    rcases List.mem_append.mp ht with h1 | h1
    · exact Nat.lt_succ_of_lt (h.tags_lt t h1)
    · rcases List.mem_singleton.mp h1 with rfl
      omega
  · intro ss' hss'
    simp at hss'
  · intro ss' hss'
    simp at hss'

/-- One scan step preserves the state invariant. -/
lemma stepFrame_ok (c : Slicer) (rms : List ℚ) (s : ScanState) (i : ℕ) (r : ℚ)
    (h : StateOk s i) : StateOk (c.stepFrame rms s i r) (i + 1) := by
  unfold Slicer.stepFrame
  by_cases hr : r < c.threshold
  · rw [if_pos hr]
    cases hss : s.silence_start with
    | none =>
      refine ⟨h.tags_le, h.tags_chain, fun t ht => Nat.lt_succ_of_lt (h.tags_lt t ht), ?_, ?_⟩
      · intro ss hss'
        have : i = ss := by simpa using hss'
        omega
      · intro ss hss' t ht
        have : i = ss := by simpa using hss'
        subst this
        exact h.tags_lt t ht
    | some v =>
      exact ⟨h.tags_le, h.tags_chain, fun t ht => Nat.lt_succ_of_lt (h.tags_lt t ht),
        fun ss hss' => Nat.lt_succ_of_lt (h.ss_lt ss hss'),
        fun ss hss' t ht => h.tags_ss ss hss' t ht⟩
  · rw [if_neg hr]
    split
    next =>
      exact ⟨h.tags_le, h.tags_chain, fun t ht => Nat.lt_succ_of_lt (h.tags_lt t ht),
        fun ss hss' => Nat.lt_succ_of_lt (h.ss_lt ss hss'),
        fun ss hss' t ht => h.tags_ss ss hss' t ht⟩
    next ss hss =>
      have hsslt : ss < i := h.ss_lt ss hss
      by_cases hd : ¬ isLeadingSilence c ss i ∧ ¬ needSliceMiddle c s.clip_start ss i
      · rw [if_pos hd]
        refine ⟨h.tags_le, h.tags_chain, fun t ht => Nat.lt_succ_of_lt (h.tags_lt t ht), ?_, ?_⟩
        · intro ss' hss'
          simp at hss'
        · intro ss' hss'
          simp at hss'
      · rw [if_neg hd]
        by_cases hA : (i : ℤ) - ss ≤ c.max_sil_kept
        · rw [if_pos hA]
          have hp1 : ss ≤ sliceArgmin rms ss (i + 1) := sliceArgmin_ge rms ss (i + 1)
          have hp2 : sliceArgmin rms ss (i + 1) < i + 1 := sliceArgmin_lt rms (by omega)
          by_cases h0 : ss = 0
          · rw [if_pos h0]
            exact commit_ok h hss (by omega) (by omega) (by omega)
          · rw [if_neg h0]
            exact commit_ok h hss (by omega) (by omega) (by omega)
        · rw [if_neg hA]
          have hgt : ss + c.max_sil_kept < i := by omega
          have hl1 : ss ≤ sliceArgmin rms ss (ss + c.max_sil_kept + 1) :=
            sliceArgmin_ge rms ss _
          have hl2 : sliceArgmin rms ss (ss + c.max_sil_kept + 1) < ss + c.max_sil_kept + 1 :=
            sliceArgmin_lt rms (by omega)
          have hr1 : i - c.max_sil_kept ≤ sliceArgmin rms (i - c.max_sil_kept) (i + 1) :=
            sliceArgmin_ge rms _ _
          have hr2 : sliceArgmin rms (i - c.max_sil_kept) (i + 1) < i + 1 :=
            sliceArgmin_lt rms (by omega)
          by_cases hB : (i : ℤ) - ss ≤ c.max_sil_kept * 2
          · rw [if_pos hB]
            have hm1 : i - c.max_sil_kept ≤
                sliceArgmin rms (i - c.max_sil_kept) (ss + c.max_sil_kept + 1) :=
              sliceArgmin_ge rms _ _
            have hm2 : sliceArgmin rms (i - c.max_sil_kept) (ss + c.max_sil_kept + 1) <
                ss + c.max_sil_kept + 1 :=
              sliceArgmin_lt rms (by omega)
            by_cases h0 : ss = 0
            · rw [if_pos h0]
              exact commit_ok h hss (by omega) (by omega) (by omega)
            · rw [if_neg h0]
              exact commit_ok h hss (by omega) (by omega) (by omega)
          · rw [if_neg hB]
            have hgt2 : ss + 2 * c.max_sil_kept < i := by omega
            by_cases h0 : ss = 0
            · rw [if_pos h0]
              exact commit_ok h hss (by omega) (by omega) (by omega)
            · rw [if_neg h0]
              exact commit_ok h hss (by omega) (by omega) (by omega)

/-- Folding the scan step over frames numbered from `n` preserves the
invariant. -/
lemma scanAux_ok (c : Slicer) (rms : List ℚ) :
    ∀ (l : List ℚ) (n : ℕ) (s : ScanState), StateOk s n →
      StateOk ((List.enumFrom n l).foldl (fun s p => c.stepFrame rms s p.1 p.2) s)
        (n + l.length)
  | [], n, s, h => by simpa using h
  | x :: xs, n, s, h => by
    have h1 := stepFrame_ok c rms s n x h
    have h2 := scanAux_ok c rms xs (n + 1) (c.stepFrame rms s n x) h1
    simp only [List.enumFrom, List.foldl_cons, List.length_cons]
    rw [show n + (xs.length + 1) = n + 1 + xs.length by omega]
    exact h2

/-- The state after the whole scan satisfies the invariant at
`total_frames`. -/
lemma scanFrames_ok (c : Slicer) (rms : List ℚ) :
    StateOk (c.scanFrames rms) rms.length := by
  have h0 : StateOk ⟨none, 0, []⟩ 0 :=
    ⟨by simp, List.chain'_nil, by simp, by simp, by simp⟩
  have h := scanAux_ok c rms rms 0 ⟨none, 0, []⟩ h0
  rw [Nat.zero_add] at h
  exact h

/-- After the trailing-silence commit, the tag list is still an ordered,
strictly separated chain. -/
lemma finalTags_ok (c : Slicer) (rms : List ℚ) (s : ScanState)
    (h : StateOk s rms.length) :
    (∀ t ∈ finalTags c rms s, t.1 ≤ t.2) ∧
    List.Chain' (fun a b : ℕ × ℕ => a.2 < b.1) (finalTags c rms s) := by
  cases hss : s.silence_start with
  | none =>
    simp only [finalTags, hss]
    exact ⟨h.tags_le, h.tags_chain⟩
  | some ss =>
    simp only [finalTags, hss]
    by_cases hcond : (rms.length : ℤ) - ss ≥ c.min_interval
    · rw [if_pos hcond]
      have hsslt : ss < rms.length := h.ss_lt ss hss
      have hp1 : ss ≤ sliceArgmin rms ss (min rms.length (ss + c.max_sil_kept) + 1) :=
        sliceArgmin_ge rms ss _
      have hp2 : sliceArgmin rms ss (min rms.length (ss + c.max_sil_kept) + 1) <
          min rms.length (ss + c.max_sil_kept) + 1 :=
        sliceArgmin_lt rms (by omega)
      constructor
      · intro t ht
        rcases List.mem_append.mp ht with h1 | h1
        · exact h.tags_le t h1
        · rcases List.mem_singleton.mp h1 with rfl
          simp only
          omega
      · rw [List.chain'_append]
        refine ⟨h.tags_chain, List.chain'_singleton _, ?_⟩
        intro x hx y hy
        have hxm : x ∈ s.sil_tags := List.mem_of_mem_getLast? hx
        have hx2 : x.2 < ss := h.tags_ss ss hss x hxm
        have hy' : (sliceArgmin rms ss (min rms.length (ss + c.max_sil_kept) + 1),
            rms.length + 1) = y := by simpa using hy
        subst hy'
        simp only
        omega
    · rw [if_neg hcond]
      exact ⟨h.tags_le, h.tags_chain⟩

/-- The head of `midBounds (a :: rest)` (when it exists) starts at `a.2`. -/
lemma midBounds_head : ∀ (a : ℕ × ℕ) (rest : List (ℕ × ℕ)) (y : ℕ × ℕ),
    y ∈ (midBounds (a :: rest)).head? → y.1 = a.2
  | _, [], y, hy => by simp [midBounds] at hy
  | a, b :: rest, y, hy => by
    simp only [midBounds, List.head?_cons, Option.mem_def, Option.some.injEq] at hy
    rw [← hy]

/-- The last element of `midBounds tags` (when it exists) ends at the first
component of the last tag. -/
lemma midBounds_getLast : ∀ (tags : List (ℕ × ℕ)) (y z : ℕ × ℕ),
    y ∈ (midBounds tags).getLast? → z ∈ tags.getLast? → y.2 = z.1
  | [], y, z, hy, _ => by simp [midBounds] at hy
  | [_], y, z, hy, _ => by simp [midBounds] at hy
  | [a, b], y, z, hy, hz => by
    simp only [midBounds, List.getLast?_singleton, Option.mem_def, Option.some.injEq] at hy
    rw [List.getLast?_cons_cons, List.getLast?_singleton] at hz
    simp only [Option.mem_def, Option.some.injEq] at hz
    rw [← hy, ← hz]
  | a :: b :: cc :: rest, y, z, hy, hz => by
    have h1 : midBounds (a :: b :: cc :: rest) =
        (a.2, b.1) :: (b.2, cc.1) :: midBounds (cc :: rest) := rfl
    rw [h1, List.getLast?_cons_cons] at hy
    rw [List.getLast?_cons_cons] at hz
    exact midBounds_getLast (b :: cc :: rest) y z hy hz

/-- Between-tag chunk bounds are nonempty intervals chained left to right. -/
lemma midBounds_ok : ∀ (tags : List (ℕ × ℕ)),
    (∀ t ∈ tags, t.1 ≤ t.2) →
    List.Chain' (fun a b : ℕ × ℕ => a.2 < b.1) tags →
    (∀ p ∈ midBounds tags, p.1 < p.2) ∧
    List.Chain' (fun p q : ℕ × ℕ => p.2 ≤ q.1) (midBounds tags)
  | [], _, _ => by simp [midBounds]
  | [_], _, _ => by simp [midBounds]
  | a :: b :: rest, hle, hch => by
    rw [List.chain'_cons] at hch
    have ih := midBounds_ok (b :: rest) (fun t ht => hle t (List.mem_cons_of_mem a ht)) hch.2
    have hmb : midBounds (a :: b :: rest) = (a.2, b.1) :: midBounds (b :: rest) := rfl
    constructor
    · intro p hp
      rw [hmb] at hp
      rcases List.mem_cons.mp hp with rfl | hp'
      · exact hch.1
      · exact ih.1 p hp'
    · rw [hmb, List.chain'_cons']
      refine ⟨?_, ih.2⟩
      intro y hy
      have hy1 : y.1 = b.2 := midBounds_head b rest y hy
      have hb := hle b (by simp)
      show b.1 ≤ y.1
      omega

/-- All chunk bounds derived from a well-formed nonempty tag list are
nonempty intervals chained left to right. -/
lemma chunkBounds_ok (total : ℕ) (t0 : ℕ × ℕ) (rest : List (ℕ × ℕ))
    (hle : ∀ t ∈ t0 :: rest, t.1 ≤ t.2)
    (hch : List.Chain' (fun a b : ℕ × ℕ => a.2 < b.1) (t0 :: rest)) :
    (∀ p ∈ chunkBounds total (t0 :: rest), p.1 < p.2) ∧
    List.Chain' (fun p q : ℕ × ℕ => p.2 ≤ q.1) (chunkBounds total (t0 :: rest)) := by
  have hmb := midBounds_ok (t0 :: rest) hle hch
  have hne : (t0 :: rest) ≠ ([] : List (ℕ × ℕ)) := by simp
  have hzl : (t0 :: rest).getLast? = some ((t0 :: rest).getLast hne) :=
    List.getLast?_eq_getLast _ hne
  set z := (t0 :: rest).getLast hne with hzdef
  have hzmem : z ∈ t0 :: rest := List.getLast_mem hne
  have hzle : z.1 ≤ z.2 := hle z hzmem
  have hgl : (t0 :: rest).getLastD (0, 0) = z := by
    rw [List.getLastD_eq_getLast?, hzl]
    rfl
  have hcbe : chunkBounds total (t0 :: rest) =
      (if 0 < t0.1 then [(0, t0.1)] else []) ++ midBounds (t0 :: rest) ++
        (if z.2 < total then [(z.2, total)] else []) := by
    simp only [chunkBounds, hgl]
  constructor
  · intro p hp
    rw [hcbe] at hp
    rcases List.mem_append.mp hp with hp1 | hp1
    · rcases List.mem_append.mp hp1 with hp2 | hp2
      · by_cases h1 : 0 < t0.1
        · rw [if_pos h1] at hp2
          rcases List.mem_singleton.mp hp2 with rfl
          exact h1
        · rw [if_neg h1] at hp2
          simp at hp2
      · exact hmb.1 p hp2
    · by_cases h2 : z.2 < total
      · rw [if_pos h2] at hp1
        rcases List.mem_singleton.mp hp1 with rfl
        exact h2
      · rw [if_neg h2] at hp1
        simp at hp1
  · rw [hcbe, List.chain'_append]
    refine ⟨?_, ?_, ?_⟩
    · rw [List.chain'_append]
      refine ⟨?_, hmb.2, ?_⟩
      · by_cases h1 : 0 < t0.1 <;> simp [h1]
      · intro x hx y hy
        by_cases h1 : 0 < t0.1
        · rw [if_pos h1] at hx
          have hx' : ((0 : ℕ), t0.1) = x := by simpa using hx
          have hy1 : y.1 = t0.2 := midBounds_head t0 rest y hy
          have ht0 := hle t0 (by simp)
          rw [← hx']
          show t0.1 ≤ y.1
          omega
        · rw [if_neg h1] at hx
          simp at hx
    · by_cases h2 : z.2 < total <;> simp [h2]
    · intro x hx y hy
      by_cases h2 : z.2 < total
      · rw [if_pos h2] at hy
        have hy' : (z.2, total) = y := by simpa using hy
        rw [← hy']
        cases hmbe : midBounds (t0 :: rest) with
        | nil =>
          rw [hmbe, List.append_nil] at hx
          by_cases h1 : 0 < t0.1
          · rw [if_pos h1] at hx
            have hx' : ((0 : ℕ), t0.1) = x := by simpa using hx
            have hrest : rest = [] := by
              cases rest with
              | nil => rfl
              | cons b rs => simp [midBounds] at hmbe
            subst hrest
            have hz0 : z = t0 := rfl
            rw [← hx']
            show t0.1 ≤ z.2
            rw [hz0]
            exact hle t0 (by simp)
          · rw [if_neg h1] at hx
            simp at hx
        | cons m ms =>
          rw [hmbe, List.getLast?_append_of_ne_nil _ (by simp)] at hx
          rw [← hmbe] at hx
          have hx2 : x.2 = z.1 := midBounds_getLast (t0 :: rest) x z hx hzl
          show x.2 ≤ z.2
          omega
      · rw [if_neg h2] at hy
        simp at hy

/-- In a chained list of nonempty intervals, the first interval ends no
later than any later interval starts. -/
lemma chain_head_le (x : ℕ × ℕ) : ∀ (xs : List (ℕ × ℕ)),
    (∀ p ∈ x :: xs, p.1 < p.2) →
    List.Chain' (fun p q : ℕ × ℕ => p.2 ≤ q.1) (x :: xs) →
    ∀ q ∈ xs, x.2 ≤ q.1
  | [], _, _, q, hq => by simp at hq
  | y :: ys, helem, hch, q, hq => by
    rw [List.chain'_cons] at hch
    rcases List.mem_cons.mp hq with rfl | hq'
    · exact hch.1
    · have ih := chain_head_le y ys (fun p hp => helem p (List.mem_cons_of_mem x hp))
        hch.2 q hq'
      have hy := helem y (by simp)
      omega

/-- A chained list of nonempty intervals is pairwise strictly increasing in
both endpoints and non-overlapping. -/
lemma chain_pairwise : ∀ (l : List (ℕ × ℕ)),
    (∀ p ∈ l, p.1 < p.2) →
    List.Chain' (fun p q : ℕ × ℕ => p.2 ≤ q.1) l →
    List.Pairwise (fun p q : ℕ × ℕ => p.1 < q.1 ∧ p.2 < q.2 ∧ p.2 ≤ q.1) l
  | [], _, _ => List.Pairwise.nil
  | x :: xs, helem, hch => by
    refine List.Pairwise.cons ?_ (chain_pairwise xs
      (fun p hp => helem p (List.mem_cons_of_mem x hp)) (List.chain'_cons'.mp hch).2)
    intro q hq
    have h1 : x.2 ≤ q.1 := chain_head_le x xs helem hch q hq
    have hx := helem x (by simp)
    have hq2 := helem q (List.mem_cons_of_mem x hq)
    exact ⟨by omega, by omega, h1⟩

/-- The reported offsets of mapped chunk bounds are the bounds scaled by the
hop size. -/
lemma segOffsets_map (c : Slicer) (w : List ℚ) :
    ∀ (l : List (ℕ × ℕ)),
      segOffsets (l.map fun p =>
        SliceResult.seg (applySlice c w p.1 p.2) (p.1 * c.hop_size) (p.2 * c.hop_size)) =
      l.map fun p => (p.1 * c.hop_size, p.2 * c.hop_size)
  | [] => rfl
  | p :: ps => by
    simp only [List.map_cons, segOffsets]
    rw [segOffsets_map c w ps]

/-- Claim C7: for every input waveform, envelope and valid configuration
(`hop_size ≥ 1` frame), the segments emitted by `slice` are strictly
increasing in both start and end sample offsets and pairwise
non-overlapping (each segment ends no later than the next begins). -/
theorem slice_segments_sorted (c : Slicer) (w rms : List ℚ) (hhop : 1 ≤ c.hop_size) :
    List.Pairwise (fun p q : ℕ × ℕ => p.1 < q.1 ∧ p.2 < q.2 ∧ p.2 ≤ q.1)
      (segOffsets (c.slice w rms)) := by
  by_cases h : w.length ≤ c.min_length
  · simp [Slicer.slice, if_pos h, segOffsets]
  · simp only [Slicer.slice, if_neg h]
    have hok := scanFrames_ok c rms
    have hf := finalTags_ok c rms _ hok
    cases htags : finalTags c rms (c.scanFrames rms) with
    | nil =>
      show List.Pairwise _ (segOffsets [SliceResult.seg w 0 (rms.length * c.hop_size)])
      simp [segOffsets]
    | cons t0 rest =>
      rw [htags] at hf
      have hcb := chunkBounds_ok rms.length t0 rest hf.1 hf.2
      show List.Pairwise _ (segOffsets ((chunkBounds rms.length (t0 :: rest)).map fun p =>
        SliceResult.seg (applySlice c w p.1 p.2) (p.1 * c.hop_size) (p.2 * c.hop_size)))
      rw [segOffsets_map]
      refine List.Pairwise.map _ ?_ (chain_pairwise _ hcb.1 hcb.2)
      intro a b hab
      refine ⟨?_, ?_, ?_⟩
      · exact Nat.mul_lt_mul_of_lt_of_le hab.1 (le_refl c.hop_size) (by omega)
      · exact Nat.mul_lt_mul_of_lt_of_le hab.2.1 (le_refl c.hop_size) (by omega)
      · exact Nat.mul_le_mul_right c.hop_size hab.2.2

/-- Witness for `slice_segments_sorted`: a configuration with
`min_length = 2` frames on a 5-frame envelope with one interior silent frame
yields two segments with offsets `(0, 20)` and `(20, 50)`, strictly
increasing and non-overlapping. -/
theorem slice_segments_sorted_witness :
    1 ≤ (Slicer.mk 1 10 10 2 1 1).hop_size ∧
    List.Pairwise (fun p q : ℕ × ℕ => p.1 < q.1 ∧ p.2 < q.2 ∧ p.2 ≤ q.1)
      (segOffsets ((Slicer.mk 1 10 10 2 1 1).slice (List.replicate 50 0) [2, 2, 0, 2, 2])) :=
  ⟨by decide, slice_segments_sorted (Slicer.mk 1 10 10 2 1 1) (List.replicate 50 0)
    [2, 2, 0, 2, 2] (by decide)⟩
